import Mathlib

/-!
Verification of the client-side retrieval and presentation engine of the
hf_bot archive site.  The definitions below are a shallow embedding of the
logic in `site/components/home-client.tsx` and
`site/components/daily-summary.tsx`: JavaScript strings become `String`
(operated on through their `List Char` data), `null`/`undefined` become
`Option`, the lunr index is an oracle parameter, and the `Array.sort`
call becomes a stable comparison sort.
-/

namespace HfBot

/-! ## String primitives

JavaScript string helpers, embedded on `List Char`.  `Char.isWhitespace`
(space, tab, CR, LF) stands in for the regex class `\s`; the inputs the
engine handles are ASCII dates, identifiers and western text, where the two
coincide. -/

/-- Embeds `s.trim()`: drop leading and trailing whitespace. -/
def trimList (l : List Char) : List Char :=
  ((l.dropWhile Char.isWhitespace).reverse.dropWhile Char.isWhitespace).reverse

/-- Embeds `s.trim()` on strings. -/
def jsTrim (s : String) : String :=
  String.mk (trimList s.data)

/-- Embeds `s.toLowerCase()` (ASCII case folding). -/
def jsToLower (s : String) : String :=
  String.mk (s.data.map Char.toLower)

/-- Splitter for `String.split` with a character-class separator: cut the
list at every element satisfying `p`, dropping the separators and keeping
(possibly empty) pieces between them. -/
def splitAux {α : Type} (p : α → Bool) (acc : List α) : List α → List (List α)
  | [] => [acc.reverse]
  | c :: cs => if p c then acc.reverse :: splitAux p [] cs else splitAux p (c :: acc) cs

/-- Embeds `s.split(sep)` for a single-character separator class. -/
def jsSplit (p : Char → Bool) (s : String) : List String :=
  (splitAux p [] s.data).map String.mk

/-- Embeds `arr.join(sep)`. -/
def joinSep (sep : String) : List String → String
  | [] => ""
  | [s] => s
  | s :: rest => s ++ sep ++ joinSep sep rest

/-- Boolean prefix test on character lists (used for the modelled index's
wildcard matching and for substring search). -/
def isPrefixList : List Char → List Char → Bool
  | [], _ => true
  | _ :: _, [] => false
  | a :: as, b :: bs => a == b && isPrefixList as bs

/-- Boolean contiguous-substring test on character lists. -/
def isInfixList (needle : List Char) : List Char → Bool
  | [] => needle.isEmpty
  | c :: rest => isPrefixList needle (c :: rest) || isInfixList needle rest

/-- Embeds `hay.includes(needle)`. -/
def includes (hay needle : String) : Bool :=
  isInfixList needle.data hay.data

/-- Lexicographic strict order on character lists (element order on
`Char`). -/
def lexLt : List Char → List Char → Bool
  | _, [] => false
  | [], _ :: _ => true
  | a :: as, b :: bs => if a < b then true else if b < a then false else lexLt as bs

/-- Lexicographic strict order on strings. -/
def strLt (a b : String) : Bool :=
  lexLt a.data b.data

/-- Embeds `a.localeCompare(b)` restricted to its sign, as plain
lexicographic comparison: the engine only compares ISO `YYYY-MM-DD` dates
and arXiv-style identifiers, for which the spec itself declares
lexicographic string comparison to be the intended order. -/
def strCmpInt (a b : String) : Int :=
  if lexLt a.data b.data then -1 else if lexLt b.data a.data then 1 else 0

/-! ## Data model (`site/lib/types.ts`) -/

/-- A paper record of the corpus snapshot.  `upvotes` is declared `number`
in `types.ts` but the engine defends against it being absent
(`paper.upvotes || 0`), so it is embedded as `Option Nat`. -/
structure PaperRecord where
  date : String
  paper_id : String
  title : String
  authors : List String
  abstract : String
  summary_en : String
  summary_zh : String
  hf_url : String
  arxiv_url : String
  arxiv_pdf_url : String
  github_url : String
  upvotes : Option Nat
  fetched_at : String
deriving DecidableEq, Repr

/-- A search document fed to the index builder (`authors` is a single
joined string in this projection). -/
structure SearchDoc where
  id : String
  date : String
  title : String
  authors : String
  abstract : String
  summary_en : String
  summary_zh : String
  upvotes : Nat
deriving DecidableEq, Repr

/-- A daily overview summary. -/
structure DailySummary where
  date : String
  content : String
  source : String
  model : String
  generated_at : String
deriving DecidableEq, Repr

/-- One hit returned by the index query (`item.ref` in the source). -/
structure LunrResult where
  ref : String
deriving DecidableEq, Repr

/-- Embeds `paper.upvotes || 0`. -/
def upvotesOrZero (p : PaperRecord) : Nat :=
  p.upvotes.getD 0

/-! ## Query planner (`home-client.tsx`) -/

/-- Embeds `normalize`: `input.trim().toLowerCase()`. -/
def normalize (input : String) : String :=
  jsToLower (jsTrim input)

/-- Embeds `splitTerms`: `query.split(/\s+/).map(t => t.trim()).filter(Boolean)`.
Splitting on every whitespace character and then dropping empty pieces is
the same as splitting on runs of whitespace and dropping the boundary
empties, which is what the regex split plus `filter(Boolean)` computes. -/
def splitTerms (query : String) : List String :=
  ((jsSplit Char.isWhitespace query).map jsTrim).filter (fun t => t ≠ "")

/-- Embeds the planned index query
`terms.map(term => term + "*").join(" ")`. -/
def buildLunrQuery (q : String) : String :=
  joinSep " " ((splitTerms q).map (fun term => term ++ "*"))

/-- Embeds the `allowedIds` computation: `null` unless the normalized query
is non-empty, the index exists, the query has at least one term and the
search call succeeds; a thrown query error is caught and yields `null`.
The index itself is an oracle `search` function supplied by the caller. -/
def computeAllowedIds (q : String)
    (lunrIndex : Option (String → Except String (List LunrResult))) :
    Option (List String) :=
  match lunrIndex with
  | none => none
  | some search =>
      if q = "" then none
      else
        let terms := splitTerms q
        if terms = [] then none
        else
          match search (buildLunrQuery q) with
          | Except.ok results => some (results.map (fun item => item.ref))
          | Except.error _ => none

/-! ## Filter compositor -/

/-- Embeds the `fallbackText` constant:
`[title, authors.join(" "), abstract, summary_en, summary_zh].join(" ").toLowerCase()`. -/
def fallbackText (paper : PaperRecord) : String :=
  jsToLower (joinSep " " [paper.title, joinSep " " paper.authors, paper.abstract,
    paper.summary_en, paper.summary_zh])

/-- The text predicate applied when the normalized query `q` is non-empty:
a non-empty candidate set is authoritative, otherwise the substring
fallback on `fallbackText` fires with the whole normalized query. -/
def textPass (q : String) (allowedIds : Option (List String)) (paper : PaperRecord) : Bool :=
  match allowedIds with
  | some ids => if ids ≠ [] then ids.contains paper.paper_id else includes (fallbackText paper) q
  | none => includes (fallbackText paper) q

/-- Embeds the body of `papers.filter(...)`: date equality first, then the
author substring test, then the text predicate (all papers pass when the
normalized query is empty). -/
def paperPass (dateFilter q authorQ : String) (allowedIds : Option (List String))
    (paper : PaperRecord) : Bool :=
  if dateFilter ≠ "" ∧ paper.date ≠ dateFilter then false
  else if authorQ ≠ "" ∧ ¬ includes (jsToLower (joinSep " " paper.authors)) authorQ then false
  else if q = "" then true
  else textPass q allowedIds paper

/-! ## Ranker -/

/-- Embeds the sort comparator passed to `matched.sort`:
upvotes descending (missing treated as 0), then date descending, then
`paper_id` ascending. -/
def comparePapers (a b : PaperRecord) : Int :=
  let byUpvotes : Int := (upvotesOrZero b : Int) - (upvotesOrZero a : Int)
  if byUpvotes ≠ 0 then byUpvotes
  else
    let byDate := strCmpInt b.date a.date
    if byDate ≠ 0 then byDate
    else strCmpInt a.paper_id b.paper_id

/-- Embeds `matched.sort(comparator)`: JavaScript array sort is a stable
sort by the comparator, modelled by stable insertion sort on
`comparePapers a b ≤ 0`. -/
def rankSort (l : List PaperRecord) : List PaperRecord :=
  List.insertionSort (fun a b => comparePapers a b ≤ 0) l

/-- Embeds the `filtered` memo: normalize the query and author inputs,
run the planned index query, filter the paper list and sort it. -/
def filteredPapers (papers : List PaperRecord) (query dateFilter authorFilter : String)
    (lunrIndex : Option (String → Except String (List LunrResult))) : List PaperRecord :=
  let q := normalize query
  let authorQ := normalize authorFilter
  let allowedIds := computeAllowedIds q lunrIndex
  rankSort (papers.filter (paperPass dateFilter q authorQ allowedIds))

/-! ## Grouper and navigator -/

/-- Embeds `grouped.get(date)`: the `Map` built in the `grouped` memo
pushes each filtered paper, in order, onto the bucket keyed by its own
`date` field, so the bucket for `date` is the in-order sublist of the
filtered list with that date. -/
def groupFor (filtered : List PaperRecord) (date : String) : List PaperRecord :=
  filtered.filter (fun p => p.date == date)

/-- Embeds `grouped.has(date)`. -/
def hasGroup (filtered : List PaperRecord) (date : String) : Bool :=
  filtered.any (fun p => p.date == date)

/-- Embeds the `visibleDates` memo: `dates.filter(d => grouped.has(d))`. -/
def visibleDates (dates : List String) (filtered : List PaperRecord) : List String :=
  dates.filter (hasGroup filtered)

/-- Embeds `selectedDate = dateFilter || (dates[0] ?? "")`. -/
def selectedDate (dateFilter : String) (dates : List String) : String :=
  if dateFilter ≠ "" then dateFilter else dates.headD ""

/-- Embeds `dates.indexOf(x)` (−1 when absent). -/
def jsIndexOf (l : List String) (x : String) : Int :=
  match l.findIdx? (fun y => y == x) with
  | some i => (i : Int)
  | none => -1

/-- Embeds `selectedDateIndex = selectedDate ? dates.indexOf(selectedDate) : -1`. -/
def selectedDateIndex (dateFilter : String) (dates : List String) : Int :=
  if selectedDate dateFilter dates ≠ "" then jsIndexOf dates (selectedDate dateFilter dates)
  else -1

/-- Embeds `canGoPrevDay`. -/
def canGoPrevDay (dateFilter : String) (dates : List String) : Bool :=
  decide (0 ≤ selectedDateIndex dateFilter dates ∧
    selectedDateIndex dateFilter dates < (dates.length : Int) - 1)

/-- Embeds `canGoNextDay`. -/
def canGoNextDay (dateFilter : String) (dates : List String) : Bool :=
  decide (0 < selectedDateIndex dateFilter dates)

/-- The previous-day button's enabled state: the source renders it with
`disabled=(Boolean(dateFilter) && !canGoPrevDay)`. -/
def prevEnabled (dateFilter : String) (dates : List String) : Bool :=
  !(decide (dateFilter ≠ "") && !canGoPrevDay dateFilter dates)

/-- The next-day button's enabled state: the source renders it with
`disabled=(Boolean(dateFilter) && !canGoNextDay)`. -/
def nextEnabled (dateFilter : String) (dates : List String) : Bool :=
  !(decide (dateFilter ≠ "") && !canGoNextDay dateFilter dates)

/-- Embeds `dates[i]` for an `Int` index known in range at the call sites
(out-of-range access would be `undefined` in the source; the guards in
`goPrevDay`/`goNextDay` keep the index in range). -/
def jsGetD (l : List String) (i : Int) : String :=
  if 0 ≤ i then l.getD i.toNat "" else ""

/-- Embeds `goPrevDay`, as the state transition on `dateFilter`:
with no filter set, select `dates[0]` (when any) and stop; otherwise step
to `dates[selectedDateIndex + 1]` when allowed. -/
def goPrevDay (dateFilter : String) (dates : List String) : String :=
  if dateFilter = "" then
    if dates.length ≠ 0 then dates.headD "" else dateFilter
  else if ¬ canGoPrevDay dateFilter dates then dateFilter
  else jsGetD dates (selectedDateIndex dateFilter dates + 1)

/-- Embeds `goNextDay`, as the state transition on `dateFilter`. -/
def goNextDay (dateFilter : String) (dates : List String) : String :=
  if dateFilter = "" then
    if dates.length ≠ 0 then dates.headD "" else dateFilter
  else if ¬ canGoNextDay dateFilter dates then dateFilter
  else jsGetD dates (selectedDateIndex dateFilter dates - 1)

/-! ## Overview resolver -/

/-- Embeds `dailySummaries[selectedDate]` property lookup on the
`Record<string, DailySummary>` (keys unique). -/
def recordLookup (m : List (String × DailySummary)) (key : String) : Option DailySummary :=
  (m.find? (fun kv => kv.1 == key)).map (fun kv => kv.2)

/-- Embeds the `activeDailySummary` memo. -/
def activeDailySummary (selDate : String) (dailySummary : Option DailySummary)
    (dailySummaries : Option (List (String × DailySummary))) : Option DailySummary :=
  if selDate = "" then dailySummary
  else
    match dailySummaries.bind (fun m => recordLookup m selDate) with
    | some s => some s
    | none =>
        match dailySummary with
        | some s => if s.date = selDate then some s else none
        | none => none

/-! ## Daily summary parsing (`daily-summary.tsx`) -/

/-- The classification of a parsed summary block. -/
inductive BlockKind where
  | ul
  | ol
  | text
deriving DecidableEq, Repr

/-- A parsed summary block. -/
structure SummaryBlock where
  heading : String
  kind : BlockKind
  items : List String
deriving DecidableEq, Repr

/-- Embeds `/^-\s+/.test(line)`. -/
def lineIsUl (line : String) : Bool :=
  match line.data with
  | '-' :: c :: _ => c.isWhitespace
  | _ => false

/-- Embeds `line.replace(/^-\s+/, "").trim()`. -/
def stripUl (line : String) : String :=
  match line.data with
  | '-' :: c :: rest =>
      if c.isWhitespace then jsTrim (String.mk ((c :: rest).dropWhile Char.isWhitespace))
      else jsTrim line
  | _ => jsTrim line

/-- Embeds `/^\d+\.\s+/.test(line)`. -/
def lineIsOl (line : String) : Bool :=
  decide (line.data.takeWhile Char.isDigit ≠ []) &&
    match line.data.dropWhile Char.isDigit with
    | '.' :: c :: _ => c.isWhitespace
    | _ => false

/-- Embeds `line.replace(/^\d+\.\s+/, "").trim()`. -/
def stripOl (line : String) : String :=
  if lineIsOl line then
    match line.data.dropWhile Char.isDigit with
    | '.' :: rest => jsTrim (String.mk (rest.dropWhile Char.isWhitespace))
    | _ => jsTrim line
  else jsTrim line

/-- Embeds the chunking pass of `parseSummaryBlocks`:
`content.split(/\n\s*\n/g).map(c => c.split("\n").map(l => l.trim()).filter(Boolean)).filter(ls => ls.length > 0)`.
Every match of the separator regex lies inside a maximal whitespace run
containing at least two newlines, and each remaining newline separates two
lines of one chunk; the per-line `trim` plus the `filter(Boolean)` then
erase exactly the leftover whitespace either reading places differently.
The composite therefore equals: split into lines at `\n`, trim every line,
cut the line list at blank lines, and drop empty chunks. -/
def summaryChunks (content : String) : List (List String) :=
  ((splitAux (fun l => l == "") []
      ((jsSplit (fun c => c == '\n') content).map jsTrim)).filter (fun ls => ls ≠ []))

/-- Embeds the per-chunk classification of `parseSummaryBlocks`: first line
is the heading, the rest is the body; a body where every line matches the
unordered marker becomes a `ul` (markers stripped), else every-line ordered
markers become an `ol`, else plain text paragraphs; no body at all is a
heading-only block. -/
def mkBlock (lines : List String) : SummaryBlock :=
  let heading := lines.headD ""
  let body := lines.tail
  if body = [] then ⟨heading, BlockKind.text, []⟩
  else if body.all lineIsUl then ⟨heading, BlockKind.ul, body.map stripUl⟩
  else if body.all lineIsOl then ⟨heading, BlockKind.ol, body.map stripOl⟩
  else ⟨heading, BlockKind.text, body⟩

/-- Embeds `parseSummaryBlocks`. -/
def parseSummaryBlocks (content : String) : List SummaryBlock :=
  (summaryChunks content).map mkBlock

/-- Embeds the rendering guard of `DailySummaryPanel`: the content is
`(summary?.content || "").trim()`; when it is empty the panel renders
nothing, otherwise the parsed blocks are shown. -/
def renderedPanel (summary : Option DailySummary) : Option (List SummaryBlock) :=
  let content := jsTrim ((summary.map DailySummary.content).getD "")
  if content = "" then none else some (parseSummaryBlocks content)

/-! ## Modelled index semantics

Modelled from the spec: the full-text index engine (the `lunr` npm
package imported by `home-client.tsx`) is not part of the repository's
sources, so its query execution is modelled from the spec's words: every
term of the planned query is a prefix clause (term plus `*` wildcard), the
index's default combinator requires all clauses to hold, and a clause holds
of a document when the term is a prefix of one of the document's
(normalized, whitespace-tokenized) field tokens. -/

/-- Modelled from the spec: the searchable text of one document (the five
indexed fields of `SearchDoc`). -/
def docText (d : SearchDoc) : String :=
  joinSep " " [d.title, d.authors, d.abstract, d.summary_en, d.summary_zh]

/-- Modelled from the spec: the index's token stream for one document. -/
def docTokens (d : SearchDoc) : List String :=
  splitTerms (normalize (docText d))

/-- Modelled from the spec: one query clause against one document; a
trailing `*` makes the clause a prefix match. -/
def clauseMatches (clause : String) (d : SearchDoc) : Bool :=
  match clause.data.getLast? with
  | some '*' => (docTokens d).any (fun tok => isPrefixList clause.data.dropLast tok.data)
  | _ => (docTokens d).any (fun tok => tok == clause)

/-- Modelled from the spec: executing a query string against the index
built over `docs` — all clauses of the query must match a document for it
to be a candidate. -/
def lunrSearch (docs : List SearchDoc) (query : String) : List LunrResult :=
  (docs.filter (fun d => (splitTerms query).all (fun c => clauseMatches c d))).map
    (fun d => ⟨d.id⟩)




/-! ## Order lemmas for the ranker -/

theorem lexLt_irrefl (l : List Char) : lexLt l l = false := by
  induction l with
  | nil => rfl
  | cons a as ih => simp [lexLt, ih]

theorem lexLt_asymm : ∀ {a b : List Char}, lexLt a b = true → lexLt b a = false
  | [], [], h => by simp [lexLt] at h
  | [], _ :: _, _ => rfl
  | _ :: _, [], h => by simp [lexLt] at h
  | x :: xs, y :: ys, h => by
      by_cases hxy : x < y
      · have hyx : ¬ y < x := lt_asymm hxy
        simp [lexLt, hyx, hxy]
      · by_cases hyx : y < x
        · simp [lexLt, hxy, hyx] at h
        · have hx : lexLt xs ys = true := by simpa [lexLt, hxy, hyx] using h
          simpa [lexLt, hxy, hyx] using lexLt_asymm hx

theorem lexLt_eq_of_not : ∀ {a b : List Char}, lexLt a b = false → lexLt b a = false → a = b
  | [], [], _, _ => rfl
  | [], _ :: _, h, _ => by simp [lexLt] at h
  | _ :: _, [], _, h => by simp [lexLt] at h
  | x :: xs, y :: ys, h1, h2 => by
      by_cases hxy : x < y
      · simp [lexLt, hxy] at h1
      · by_cases hyx : y < x
        · simp [lexLt, hyx] at h2
        · have hx : x = y := le_antisymm (not_lt.mp hyx) (not_lt.mp hxy)
          have t1 : lexLt xs ys = false := by simpa [lexLt, hxy, hyx] using h1
          have t2 : lexLt ys xs = false := by
            subst hx
            simpa [lexLt, hxy, hyx] using h2
          subst hx
          rw [lexLt_eq_of_not t1 t2]

theorem lexLt_trans : ∀ {a b c : List Char},
    lexLt a b = true → lexLt b c = true → lexLt a c = true
  | _, [], _, h, _ => by simp [lexLt] at h
  | _, _ :: _, [], _, h => by simp [lexLt] at h
  | [], y :: ys, z :: zs, _, _ => rfl
  | x :: xs, y :: ys, z :: zs, h1, h2 => by
      by_cases hxy : x < y
      · by_cases hyz : y < z
        · simp [lexLt, lt_trans hxy hyz]
        · by_cases hzy : z < y
          · simp [lexLt, hyz, hzy] at h2
          · have : y = z := le_antisymm (not_lt.mp hzy) (not_lt.mp hyz)
            subst this
            simp [lexLt, hxy]
      · by_cases hyx : y < x
        · simp [lexLt, hxy, hyx] at h1
        · have hx : x = y := le_antisymm (not_lt.mp hyx) (not_lt.mp hxy)
          subst hx
          by_cases hyz : x < z
          · simp [lexLt, hyz]
          · by_cases hzy : z < x
            · simp [lexLt, hyz, hzy] at h2
            · have : x = z := le_antisymm (not_lt.mp hzy) (not_lt.mp hyz)
              subst this
              have t1 : lexLt xs ys = true := by simpa [lexLt, hxy, hyx] using h1
              have t2 : lexLt ys zs = true := by simpa [lexLt, hxy, hyx] using h2
              simpa [lexLt, hxy, hyx] using lexLt_trans t1 t2

theorem strLt_asymm {a b : String} (h : strLt a b = true) : strLt b a = false :=
  lexLt_asymm h

theorem strLt_eq_of_not {a b : String} (h1 : strLt a b = false) (h2 : strLt b a = false) :
    a = b := by
  cases a with
  | mk da =>
      cases b with
      | mk db => exact congrArg String.mk (lexLt_eq_of_not h1 h2)

theorem strLt_trans {a b c : String} (h1 : strLt a b = true) (h2 : strLt b c = true) :
    strLt a c = true :=
  lexLt_trans h1 h2

theorem strLt_irrefl (a : String) : strLt a a = false :=
  lexLt_irrefl a.data


theorem strCmpInt_neg_iff {a b : String} : strCmpInt a b < 0 ↔ strLt a b = true := by
  unfold strCmpInt strLt
  split_ifs with h1 h2
  · simpa using h1
  · constructor
    · intro h; omega
    · intro h; exact absurd h h1
  · constructor
    · intro h; omega
    · intro h; exact absurd h h1

theorem strCmpInt_pos_iff {a b : String} : 0 < strCmpInt a b ↔ strLt b a = true := by
  unfold strCmpInt strLt
  split_ifs with h1 h2
  · have hf := lexLt_asymm h1
    constructor
    · intro h; omega
    · intro h; rw [h] at hf; exact absurd hf (by simp)
  · simpa using h2
  · constructor
    · intro h; omega
    · intro h; exact absurd h h2

theorem strCmpInt_eq_zero_iff {a b : String} : strCmpInt a b = 0 ↔ a = b := by
  unfold strCmpInt
  split_ifs with h1 h2
  · constructor
    · intro h; simp at h
    · intro h; subst h; simp [lexLt_irrefl] at h1
  · constructor
    · intro h; simp at h
    · intro h; subst h; simp [lexLt_irrefl] at h2
  · simp only [true_iff]
    exact strLt_eq_of_not (a := a) (b := b) (by simpa using h1) (by simpa using h2)

theorem strCmpInt_swap (a b : String) : strCmpInt b a = -strCmpInt a b := by
  unfold strCmpInt
  by_cases h1 : lexLt a.data b.data = true
  · simp [h1, lexLt_asymm h1]
  · by_cases h2 : lexLt b.data a.data = true
    · simp [h1, h2]
    · simp [h1, h2]

/-- The ordering the spec describes for the ranker: upvotes descending
(missing as 0), then date descending, then `paper_id` ascending. -/
def rankBefore (a b : PaperRecord) : Prop :=
  upvotesOrZero b < upvotesOrZero a ∨
    (upvotesOrZero b = upvotesOrZero a ∧
      (strLt b.date a.date = true ∨ (b.date = a.date ∧ strLt a.paper_id b.paper_id = true)))

theorem comparePapers_swap (a b : PaperRecord) : comparePapers b a = -comparePapers a b := by
  unfold comparePapers
  by_cases hu : ((upvotesOrZero b : Int) - (upvotesOrZero a : Int)) = 0
  · have hu2 : ((upvotesOrZero a : Int) - (upvotesOrZero b : Int)) = 0 := by omega
    simp only [hu, hu2, ne_eq, not_true_eq_false, if_false, not_not, if_pos]
    by_cases hd : strCmpInt b.date a.date = 0
    · have hd2 : strCmpInt a.date b.date = 0 := by rw [strCmpInt_swap] at hd; omega
      simp only [hd, hd2, ne_eq, not_true_eq_false, if_false, not_not, if_pos]
      exact strCmpInt_swap a.paper_id b.paper_id
    · have hd2 : strCmpInt a.date b.date ≠ 0 := by rw [strCmpInt_swap]; omega
      simp only [ne_eq, hd, hd2, not_false_eq_true, if_true]
      exact strCmpInt_swap b.date a.date
  · have hu2 : ((upvotesOrZero a : Int) - (upvotesOrZero b : Int)) ≠ 0 := by omega
    simp only [ne_eq, hu, hu2, not_false_eq_true, if_true]
    omega

theorem comparePapers_lt_iff (a b : PaperRecord) :
    comparePapers a b < 0 ↔ rankBefore a b := by
  unfold comparePapers rankBefore
  by_cases hu : ((upvotesOrZero b : Int) - (upvotesOrZero a : Int)) = 0
  · have hueq : upvotesOrZero a = upvotesOrZero b := by omega
    simp only [hu, ne_eq, not_true_eq_false, if_false, not_not, if_pos]
    by_cases hd : strCmpInt b.date a.date = 0
    · have hdeq : b.date = a.date := strCmpInt_eq_zero_iff.mp hd
      simp only [hd, ne_eq, not_true_eq_false, if_false, not_not, if_pos]
      rw [strCmpInt_neg_iff]
      constructor
      · intro h
        exact Or.inr ⟨hueq.symm, Or.inr ⟨hdeq, h⟩⟩
      · rintro (h | ⟨_, h | ⟨_, h⟩⟩)
        · omega
        · rw [hdeq, strLt_irrefl] at h; exact absurd h (by simp)
        · exact h
    · simp only [ne_eq, hd, not_false_eq_true, if_true]
      rw [strCmpInt_neg_iff]
      constructor
      · intro h
        exact Or.inr ⟨hueq.symm, Or.inl h⟩
      · rintro (h | ⟨_, h | ⟨hde, _⟩⟩)
        · omega
        · exact h
        · rw [hde] at hd; exact absurd (strCmpInt_eq_zero_iff.mpr rfl) hd
  · simp only [ne_eq, hu, not_false_eq_true, if_true]
    constructor
    · intro h
      exact Or.inl (by omega)
    · rintro (h | ⟨heq, _⟩)
      · omega
      · omega

theorem comparePapers_eq_zero_iff (a b : PaperRecord) :
    comparePapers a b = 0 ↔
      upvotesOrZero a = upvotesOrZero b ∧ a.date = b.date ∧ a.paper_id = b.paper_id := by
  unfold comparePapers
  by_cases hu : ((upvotesOrZero b : Int) - (upvotesOrZero a : Int)) = 0
  · simp only [hu, ne_eq, not_true_eq_false, if_false, not_not, if_pos]
    by_cases hd : strCmpInt b.date a.date = 0
    · have hdeq : b.date = a.date := strCmpInt_eq_zero_iff.mp hd
      simp only [hd, ne_eq, not_true_eq_false, if_false, not_not, if_pos]
      rw [strCmpInt_eq_zero_iff]
      constructor
      · intro h
        exact ⟨by omega, hdeq.symm, h⟩
      · intro ⟨_, _, h⟩
        exact h
    · simp only [ne_eq, hd, not_false_eq_true, if_true]
      constructor
      · intro h; exact h.elim
      · intro ⟨_, hde, _⟩
        rw [hde] at hd
        exact absurd (strCmpInt_eq_zero_iff.mpr rfl) hd
  · simp only [ne_eq, hu, not_false_eq_true, if_true]
    constructor
    · intro h; exact h.elim
    · intro ⟨h, _, _⟩; omega

theorem comparePapers_congr_left {a b : PaperRecord}
    (h1 : upvotesOrZero a = upvotesOrZero b) (h2 : a.date = b.date)
    (h3 : a.paper_id = b.paper_id) (c : PaperRecord) :
    comparePapers a c = comparePapers b c := by
  unfold comparePapers
  rw [h1, h2, h3]

theorem rankBefore_trans {a b c : PaperRecord}
    (h1 : rankBefore a b) (h2 : rankBefore b c) : rankBefore a c := by
  unfold rankBefore at h1 h2 ⊢
  rcases h1 with h1 | ⟨h1u, h1r⟩
  · rcases h2 with h2 | ⟨h2u, _⟩
    · exact Or.inl (by omega)
    · exact Or.inl (by omega)
  · rcases h2 with h2 | ⟨h2u, h2r⟩
    · exact Or.inl (by omega)
    · refine Or.inr ⟨by omega, ?_⟩
      rcases h1r with h1d | ⟨h1d, h1i⟩
      · rcases h2r with h2d | ⟨h2d, _⟩
        · exact Or.inl (strLt_trans h2d h1d)
        · exact Or.inl (h2d ▸ h1d)
      · rcases h2r with h2d | ⟨h2d, h2i⟩
        · exact Or.inl (h1d ▸ h2d)
        · exact Or.inr ⟨h2d.trans h1d, strLt_trans h1i h2i⟩

theorem comparePapers_le_trans {a b c : PaperRecord}
    (h1 : comparePapers a b ≤ 0) (h2 : comparePapers b c ≤ 0) :
    comparePapers a c ≤ 0 := by
  rcases lt_or_eq_of_le h1 with h1lt | h1eq
  · rcases lt_or_eq_of_le h2 with h2lt | h2eq
    · have := rankBefore_trans ((comparePapers_lt_iff a b).mp h1lt)
        ((comparePapers_lt_iff b c).mp h2lt)
      have := (comparePapers_lt_iff a c).mpr this
      omega
    · obtain ⟨k1, k2, k3⟩ := (comparePapers_eq_zero_iff b c).mp h2eq
      have := comparePapers_swap a b
      have hcb : comparePapers c a = comparePapers b a :=
        comparePapers_congr_left k1.symm k2.symm k3.symm a
      have := comparePapers_swap a c
      have := comparePapers_swap a b
      omega
  · obtain ⟨k1, k2, k3⟩ := (comparePapers_eq_zero_iff a b).mp h1eq
    have hac : comparePapers a c = comparePapers b c :=
      comparePapers_congr_left k1 k2 k3 c
    omega

instance : IsTrans PaperRecord (fun a b => comparePapers a b ≤ 0) :=
  ⟨fun _ _ _ h1 h2 => comparePapers_le_trans h1 h2⟩

instance : IsTotal PaperRecord (fun a b => comparePapers a b ≤ 0) :=
  ⟨fun a b => by have := comparePapers_swap a b; omega⟩

theorem rankSort_perm (l : List PaperRecord) : (rankSort l).Perm l :=
  List.perm_insertionSort _ l

theorem rankSort_sorted (l : List PaperRecord) :
    (rankSort l).Sorted (fun a b => comparePapers a b ≤ 0) :=
  List.sorted_insertionSort _ l

/-! ## Splitting and trimming lemmas -/

theorem mk_data (s : String) : String.mk s.data = s := by
  cases s
  rfl

theorem dropWhile_eq_self_of {α : Type} (p : α → Bool) :
    ∀ {l : List α}, (∀ x ∈ l, p x = false) → l.dropWhile p = l
  | [], _ => rfl
  | c :: cs, h => by
      have hc : p c = false := h c (by simp)
      simp [List.dropWhile_cons, hc]

theorem trimList_eq_self {l : List Char} (h : ∀ c ∈ l, c.isWhitespace = false) :
    trimList l = l := by
  unfold trimList
  rw [dropWhile_eq_self_of _ h, dropWhile_eq_self_of, List.reverse_reverse]
  intro x hx
  exact h x (List.mem_reverse.mp hx)

theorem jsTrim_eq_self {s : String} (h : ∀ c ∈ s.data, c.isWhitespace = false) :
    jsTrim s = s := by
  have := trimList_eq_self h
  unfold jsTrim
  rw [this, mk_data]

theorem splitAux_no_sep {α : Type} (p : α → Bool) :
    ∀ (l acc : List α), (∀ x ∈ l, p x = false) →
      splitAux p acc l = [acc.reverse ++ l]
  | [], acc, _ => by simp [splitAux]
  | c :: cs, acc, h => by
      have hc : p c = false := h c (by simp)
      have ih := splitAux_no_sep p cs (c :: acc) (fun x hx => h x (by simp [hx]))
      simp [splitAux, hc, ih]

theorem splitAux_chunk {α : Type} (p : α → Bool) :
    ∀ (xs : List α), (∀ x ∈ xs, p x = false) →
      ∀ (c : α), p c = true → ∀ (cs acc : List α),
        splitAux p acc (xs ++ c :: cs) = (acc.reverse ++ xs) :: splitAux p [] cs
  | [], _, c, hc, cs, acc => by simp [splitAux, hc]
  | x :: xs, h, c, hc, cs, acc => by
      have hx : p x = false := h x (by simp)
      have ih := splitAux_chunk p xs (fun y hy => h y (by simp [hy])) c hc cs (x :: acc)
      show splitAux p acc (x :: (xs ++ c :: cs)) = (acc.reverse ++ x :: xs) :: splitAux p [] cs
      simp only [splitAux, hx, Bool.false_eq_true, if_false, ih, List.reverse_cons,
        List.append_assoc, List.singleton_append]

theorem splitAux_pieces {α : Type} (p : α → Bool) :
    ∀ (l acc : List α), (∀ x ∈ acc, p x = false) →
      ∀ piece ∈ splitAux p acc l, ∀ x ∈ piece, p x = false
  | [], acc, hacc => by
      intro piece hp x hx
      simp only [splitAux, List.mem_singleton] at hp
      subst hp
      exact hacc x (List.mem_reverse.mp hx)
  | c :: cs, acc, hacc => by
      intro piece hp x hx
      by_cases hc : p c = true
      · simp only [splitAux, hc, if_true] at hp
        rcases List.mem_cons.mp hp with hp | hp
        · subst hp
          exact hacc x (List.mem_reverse.mp hx)
        · exact splitAux_pieces p cs [] (by simp) piece hp x hx
      · have hc2 : p c = false := by simpa using hc
        simp only [splitAux, hc2, Bool.false_eq_true, if_false] at hp
        refine splitAux_pieces p cs (c :: acc) ?_ piece hp x hx
        intro y hy
        rcases List.mem_cons.mp hy with hy | hy
        · subst hy; exact hc2
        · exact hacc y hy

theorem splitTerms_mem {q t : String} (ht : t ∈ splitTerms q) :
    t ≠ "" ∧ ∀ c ∈ t.data, c.isWhitespace = false := by
  unfold splitTerms at ht
  obtain ⟨hmem, hne⟩ := List.mem_filter.mp ht
  obtain ⟨u, hu, hut⟩ := List.mem_map.mp hmem
  unfold jsSplit at hu
  obtain ⟨piece, hpiece, hup⟩ := List.mem_map.mp hu
  have hws : ∀ x ∈ piece, Char.isWhitespace x = false :=
    splitAux_pieces _ q.data [] (by simp) piece hpiece
  have hudata : u.data = piece := by rw [← hup]
  have hju : jsTrim u = u := jsTrim_eq_self (by rw [hudata]; exact hws)
  have htu : t = u := by rw [← hut, hju]
  subst htu
  exact ⟨by simpa using hne, by rw [hudata]; exact hws⟩

theorem splitTerms_cons_sep (t : String) (hne : t ≠ "")
    (hws : ∀ c ∈ t.data, c.isWhitespace = false) (s : String) :
    splitTerms (t ++ " " ++ s) = t :: splitTerms s := by
  unfold splitTerms jsSplit
  have hdata : (t ++ " " ++ s).data = t.data ++ ' ' :: s.data := by
    rw [String.data_append, String.data_append, List.append_assoc]
    rfl
  rw [hdata, splitAux_chunk Char.isWhitespace t.data hws ' ' (by decide) s.data []]
  simp only [List.reverse_nil, List.nil_append, List.map_cons, List.filter_cons, mk_data]
  rw [jsTrim_eq_self hws]
  simp [hne]

theorem splitTerms_empty : splitTerms "" = [] := by decide

theorem splitTerms_single (t : String) (hne : t ≠ "")
    (hws : ∀ c ∈ t.data, c.isWhitespace = false) :
    splitTerms t = [t] := by
  unfold splitTerms jsSplit
  rw [splitAux_no_sep Char.isWhitespace t.data [] hws]
  simp only [List.reverse_nil, List.nil_append, List.map_cons, List.map_nil, mk_data,
    List.filter_cons, List.filter_nil]
  rw [jsTrim_eq_self hws]
  simp [hne]

theorem splitTerms_joinSep :
    ∀ (ts : List String), (∀ t ∈ ts, t ≠ "" ∧ ∀ c ∈ t.data, c.isWhitespace = false) →
      splitTerms (joinSep " " ts) = ts
  | [], _ => splitTerms_empty
  | [t], h => by
      obtain ⟨hne, hws⟩ := h t (by simp)
      exact splitTerms_single t hne hws
  | t1 :: t2 :: rest, h => by
      obtain ⟨hne, hws⟩ := h t1 (by simp)
      have ih := splitTerms_joinSep (t2 :: rest) (fun t ht => h t (by simp [ht]))
      show splitTerms (t1 ++ " " ++ joinSep " " (t2 :: rest)) = t1 :: t2 :: rest
      rw [splitTerms_cons_sep t1 hne hws, ih]

/-! ## Planned-query lemmas -/

theorem star_data : ("*" : String).data = ['*'] := rfl

theorem wildcard_term_ok {t : String} (_hne : t ≠ "")
    (hws : ∀ c ∈ t.data, c.isWhitespace = false) :
    (t ++ "*") ≠ "" ∧ ∀ c ∈ (t ++ "*").data, c.isWhitespace = false := by
  constructor
  · intro h
    have : (t ++ "*").data = [] := by rw [h]
    rw [String.data_append, star_data] at this
    simp at this
  · intro c hc
    rw [String.data_append, star_data] at hc
    rcases List.mem_append.mp hc with hc | hc
    · exact hws c hc
    · have : c = '*' := by simpa using hc
      subst this
      decide

theorem splitTerms_buildLunrQuery (q : String) :
    splitTerms (buildLunrQuery q) = (splitTerms q).map (fun term => term ++ "*") := by
  apply splitTerms_joinSep
  intro t ht
  obtain ⟨u, hu, huw⟩ := List.mem_map.mp ht
  obtain ⟨hne, hws⟩ := splitTerms_mem hu
  rw [← huw]
  exact wildcard_term_ok hne hws

theorem clauseMatches_wildcard (t : String) (d : SearchDoc) :
    clauseMatches (t ++ "*") d
      = (docTokens d).any (fun tok => isPrefixList t.data tok.data) := by
  unfold clauseMatches
  have h1 : (t ++ "*").data = t.data ++ ['*'] := by rw [String.data_append, star_data]
  rw [h1, List.getLast?_concat, List.dropLast_concat]
  rfl

/-! ## Navigation index bound -/

theorem jsIndexOf_lt_length {l : List String} {x : String}
    (h : 0 ≤ jsIndexOf l x) : jsIndexOf l x < (l.length : Int) := by
  unfold jsIndexOf at h ⊢
  cases hf : l.findIdx? (fun y => y == x) with
  | none =>
      rw [hf] at h
      exact absurd (h : (0 : Int) ≤ -1) (by decide)
  | some i =>
      have := (List.findIdx?_eq_some_iff_findIdx_eq.mp hf).1
      show (i : Int) < (l.length : Int)
      exact_mod_cast this

/-- The `grouped.has(d)` test agrees with non-emptiness of the group list. -/
theorem hasGroup_eq_not_isEmpty (f : List PaperRecord) (d : String) :
    hasGroup f d = !(groupFor f d).isEmpty := by
  unfold hasGroup groupFor
  induction f with
  | nil => rfl
  | cons p ps ih =>
      simp only [List.any_cons, List.filter_cons]
      cases hp : (p.date == d) with
      | true => simp
      | false => simpa using ih

/-! ## Sample inputs for concrete witnesses -/

/-- A sample paper record used by concrete witnesses. -/
def wPaper : PaperRecord :=
  { date := "2026-02-19", paper_id := "2502.00001", title := "Scaling Laws",
    authors := ["Ada Lovelace", "Alan Turing"], abstract := "We study transformer models.",
    summary_en := "A study of transformers.", summary_zh := "", hf_url := "", arxiv_url := "",
    arxiv_pdf_url := "", github_url := "", upvotes := some 3, fetched_at := "" }

/-- A sample paper whose date does not occur in the sample date index. -/
def wPaperOld : PaperRecord :=
  { date := "2026-01-05", paper_id := "2501.00007", title := "Old Paper",
    authors := [], abstract := "An abstract.", summary_en := "", summary_zh := "",
    hf_url := "", arxiv_url := "", arxiv_pdf_url := "", github_url := "",
    upvotes := none, fetched_at := "" }

/-! ## The claims -/

/-- Claim C1: for a query with non-empty normalization, a non-empty candidate
set is authoritative for the text predicate (membership of the paper's
`paper_id`), while an empty candidate set or an unusable index makes the
predicate the substring test of the whole normalized query against the
lower-cased join of title, authors, abstract and both summaries. -/
theorem C1_text_predicate (query : String) (paper : PaperRecord) (ids : List String)
    (_hq : normalize query ≠ "") :
    (ids ≠ [] → textPass (normalize query) (some ids) paper = ids.contains paper.paper_id) ∧
    textPass (normalize query) (some []) paper = includes (fallbackText paper) (normalize query) ∧
    textPass (normalize query) none paper = includes (fallbackText paper) (normalize query) := by
  refine ⟨fun hne => ?_, ?_, rfl⟩
  · simp [textPass, hne]
  · simp [textPass]

theorem C1_text_predicate_witness :
    textPass (normalize " TransFormer ") (some ["2502.00002"]) wPaper
        = ["2502.00002"].contains wPaper.paper_id ∧
    textPass (normalize " TransFormer ") none wPaper
        = includes (fallbackText wPaper) (normalize " TransFormer ") :=
  ⟨(C1_text_predicate " TransFormer " wPaper ["2502.00002"] (by decide)).1 (by decide),
   (C1_text_predicate " TransFormer " wPaper ["2502.00002"] (by decide)).2.2⟩

/-- Claim C2: the ranker's comparator orders by upvotes descending (a missing
value as 0), then date descending (lexicographic), then `paper_id` ascending;
it is antisymmetric and non-zero on distinct `paper_id`s, and the ranker sorts
any list into comparator order. -/
theorem C2_ranker_total_order (a b : PaperRecord) :
    (comparePapers a b < 0 ↔ rankBefore a b) ∧
    comparePapers b a = -comparePapers a b ∧
    (a.paper_id ≠ b.paper_id → comparePapers a b ≠ 0) ∧
    (∀ l : List PaperRecord, (rankSort l).Perm l ∧
      (rankSort l).Sorted fun x y => comparePapers x y ≤ 0) := by
  refine ⟨comparePapers_lt_iff a b, comparePapers_swap a b, fun hne h0 => ?_,
    fun l => ⟨rankSort_perm l, rankSort_sorted l⟩⟩
  exact hne ((comparePapers_eq_zero_iff a b).mp h0).2.2

/-- Claim C3 counterexample: with no date filter set and the date index
`["2026-02-19", "2026-02-18"]`, the selected-date index is 0, yet the
next-day control is enabled (and invoking it selects the newest date),
refuting "the next-day control is enabled if and only if i > 0". -/
theorem C3_date_nav_counterexample :
    nextEnabled "" ["2026-02-19", "2026-02-18"] = true ∧
    selectedDateIndex "" ["2026-02-19", "2026-02-18"] = 0 ∧
    goNextDay "" ["2026-02-19", "2026-02-18"] = "2026-02-19" := by decide

/-- Claim C3 amended: when a date filter is set, the previous-day control is
enabled iff `0 ≤ i < len − 1` and stepping moves to `DateIndex[i+1]`, and the
next-day control is enabled iff `i > 0` and stepping moves to `DateIndex[i−1]`;
when no date filter is set both controls are enabled, and invoking either
selects `DateIndex[0]` when the index is non-empty (no-op otherwise) with no
further step on that invocation. -/
theorem C3_date_nav_amended (dateFilter : String) (dates : List String) :
    (prevEnabled dateFilter dates = true ↔
      dateFilter = "" ∨ (0 ≤ selectedDateIndex dateFilter dates ∧
        selectedDateIndex dateFilter dates < (dates.length : Int) - 1)) ∧
    (nextEnabled dateFilter dates = true ↔
      dateFilter = "" ∨ 0 < selectedDateIndex dateFilter dates) ∧
    (dateFilter ≠ "" → 0 ≤ selectedDateIndex dateFilter dates →
      selectedDateIndex dateFilter dates < (dates.length : Int) - 1 →
      goPrevDay dateFilter dates
        = dates.getD (selectedDateIndex dateFilter dates + 1).toNat "" ∧
      (selectedDateIndex dateFilter dates + 1).toNat < dates.length) ∧
    (dateFilter ≠ "" → 0 < selectedDateIndex dateFilter dates →
      goNextDay dateFilter dates
        = dates.getD (selectedDateIndex dateFilter dates - 1).toNat "" ∧
      (selectedDateIndex dateFilter dates - 1).toNat < dates.length) ∧
    (dateFilter = "" → dates ≠ [] →
      goPrevDay dateFilter dates = dates.headD "" ∧
      goNextDay dateFilter dates = dates.headD "") ∧
    (dateFilter = "" → dates = [] →
      goPrevDay dateFilter dates = dateFilter ∧
      goNextDay dateFilter dates = dateFilter) := by
  refine ⟨?_, ?_, ?_, ?_, ?_, ?_⟩
  · unfold prevEnabled canGoPrevDay
    by_cases hdf : dateFilter = "" <;> simp [hdf]
  · unfold nextEnabled canGoNextDay
    by_cases hdf : dateFilter = "" <;> simp [hdf]
  · intro hdf h0 hlt
    have hcan : canGoPrevDay dateFilter dates = true := by
      unfold canGoPrevDay
      simp only [decide_eq_true_eq]
      exact ⟨h0, hlt⟩
    constructor
    · unfold goPrevDay jsGetD
      rw [if_neg hdf]
      simp only [hcan, Bool.true_eq_false, not_true_eq_false, if_false, if_pos (by omega : (0 : Int) ≤ selectedDateIndex dateFilter dates + 1)]
    · omega
  · intro hdf hpos
    have hidx : selectedDateIndex dateFilter dates = jsIndexOf dates dateFilter := by
      unfold selectedDateIndex selectedDate
      rw [if_pos hdf, if_pos hdf]
    have hlen : selectedDateIndex dateFilter dates < (dates.length : Int) := by
      rw [hidx] at hpos ⊢
      exact jsIndexOf_lt_length (by omega)
    have hcan : canGoNextDay dateFilter dates = true := by
      unfold canGoNextDay
      simp only [decide_eq_true_eq]
      exact hpos
    constructor
    · unfold goNextDay jsGetD
      rw [if_neg hdf]
      simp only [hcan, Bool.true_eq_false, not_true_eq_false, if_false, if_pos (by omega : (0 : Int) ≤ selectedDateIndex dateFilter dates - 1)]
    · omega
  · intro hdf hne
    have hlen : dates.length ≠ 0 := by
      intro h
      exact hne (List.eq_nil_of_length_eq_zero h)
    simp [goPrevDay, goNextDay, hdf, hlen]
  · intro hdf hnil
    subst hnil
    simp [goPrevDay, goNextDay, hdf]

/-- Claim C4: the query planner splits the normalized query on runs of
whitespace (terms are non-empty and whitespace-free, with no minimum length),
appends the wildcard suffix to every term, and a document is in the modelled
index's candidate set only if every term prefix-matches one of its tokens. -/
theorem C4_query_planner (query : String) (_hq : normalize query ≠ "") :
    (∀ t ∈ splitTerms (normalize query), t ≠ "" ∧ ∀ c ∈ t.data, c.isWhitespace = false) ∧
    buildLunrQuery (normalize query)
      = joinSep " " ((splitTerms (normalize query)).map fun term => term ++ "*") ∧
    (∀ (docs : List SearchDoc) (r : LunrResult),
      r ∈ lunrSearch docs (buildLunrQuery (normalize query)) →
        ∃ d ∈ docs, r.ref = d.id ∧ ∀ t ∈ splitTerms (normalize query),
          (docTokens d).any (fun tok => isPrefixList t.data tok.data) = true) := by
  refine ⟨fun t ht => splitTerms_mem ht, rfl, ?_⟩
  intro docs r hr
  unfold lunrSearch at hr
  obtain ⟨d, hd, hrd⟩ := List.mem_map.mp hr
  obtain ⟨hdocs, hpred⟩ := List.mem_filter.mp hd
  refine ⟨d, hdocs, by rw [← hrd], ?_⟩
  intro t ht
  have hall := List.all_eq_true.mp hpred
  have hmem : (t ++ "*") ∈ splitTerms (buildLunrQuery (normalize query)) := by
    rw [splitTerms_buildLunrQuery]
    exact List.mem_map.mpr ⟨t, ht, rfl⟩
  have hcm := hall (t ++ "*") hmem
  rwa [clauseMatches_wildcard] at hcm

theorem C4_query_planner_witness :
    splitTerms (normalize "A 1") = ["a", "1"] ∧
    buildLunrQuery (normalize "A 1")
      = joinSep " " ((splitTerms (normalize "A 1")).map fun term => term ++ "*") :=
  ⟨by decide, (C4_query_planner "A 1" (by decide)).2.1⟩

/-- Claim C5: the active daily summary resolution order — with no selected
date the single summary (if any); else the per-date mapping entry; else the
single summary exactly when its own date equals the selected date; else
nothing. -/
theorem C5_overview_resolution (selDate : String) (ds : Option DailySummary)
    (dss : Option (List (String × DailySummary))) :
    (selDate = "" → activeDailySummary selDate ds dss = ds) ∧
    (selDate ≠ "" → ∀ s, dss.bind (fun m => recordLookup m selDate) = some s →
      activeDailySummary selDate ds dss = some s) ∧
    (selDate ≠ "" → dss.bind (fun m => recordLookup m selDate) = none →
      ∀ d, ds = some d →
        activeDailySummary selDate ds dss = if d.date = selDate then some d else none) ∧
    (selDate ≠ "" → dss.bind (fun m => recordLookup m selDate) = none → ds = none →
      activeDailySummary selDate ds dss = none) := by
  refine ⟨fun h => by simp [activeDailySummary, h], fun h s hs => ?_,
    fun h hn d hd => ?_, fun h hn hd => ?_⟩
  · simp [activeDailySummary, h, hs]
  · subst hd
    simp [activeDailySummary, h, hn]
  · subst hd
    simp [activeDailySummary, h, hn]

/-- Claim C6: summary content parsing — chunks are the maximal groups of
non-blank trimmed lines, one block per chunk with the first line as heading;
an all-unordered-marker body becomes a `ul` with markers stripped, an
all-ordered-marker body an `ol`, anything else plain paragraphs, and an empty
body a heading-only block; empty trimmed content suppresses the panel; and the
content "Key Findings\n- A\n- B" yields exactly one unordered block. -/
theorem C6_summary_parsing (content : String) (summary : Option DailySummary) :
    parseSummaryBlocks content = (summaryChunks content).map mkBlock ∧
    (∀ ls ∈ summaryChunks content, ls ≠ [] ∧ ∀ l ∈ ls, l ≠ "") ∧
    (∀ ls : List String, (mkBlock ls).heading = ls.headD "" ∧
      (ls.tail = [] → mkBlock ls = ⟨ls.headD "", BlockKind.text, []⟩) ∧
      (ls.tail ≠ [] → ls.tail.all lineIsUl = true →
        mkBlock ls = ⟨ls.headD "", BlockKind.ul, ls.tail.map stripUl⟩) ∧
      (ls.tail ≠ [] → ls.tail.all lineIsUl = false → ls.tail.all lineIsOl = true →
        mkBlock ls = ⟨ls.headD "", BlockKind.ol, ls.tail.map stripOl⟩) ∧
      (ls.tail ≠ [] → ls.tail.all lineIsUl = false → ls.tail.all lineIsOl = false →
        mkBlock ls = ⟨ls.headD "", BlockKind.text, ls.tail⟩)) ∧
    (jsTrim ((summary.map DailySummary.content).getD "") = "" →
      renderedPanel summary = none) ∧
    parseSummaryBlocks "Key Findings\n- A\n- B"
      = [⟨"Key Findings", BlockKind.ul, ["A", "B"]⟩] := by
  refine ⟨rfl, ?_, ?_, fun h => by simp [renderedPanel, h], by decide⟩
  · intro ls hls
    unfold summaryChunks at hls
    obtain ⟨hmem, hne⟩ := List.mem_filter.mp hls
    refine ⟨by simpa using hne, ?_⟩
    intro l hl
    have := splitAux_pieces _ _ [] (by simp) ls hmem l hl
    simpa using this
  · intro ls
    refine ⟨?_, fun h => by simp [mkBlock, h], fun h1 h2 => by simp [mkBlock, h1, h2],
      fun h1 h2 h3 => by simp [mkBlock, h1, h2, h3],
      fun h1 h2 h3 => by simp [mkBlock, h1, h2, h3]⟩
    simp only [mkBlock]
    split_ifs <;> rfl

/-- Claim C7: every filtered paper lies in the group keyed by its own date and
in no other, groups preserve rank order, and the visible-date sequence is the
date index restricted to dates with a non-empty group, hence an
order-preserving subsequence of the date index. -/
theorem C7_grouping (papers : List PaperRecord) (query dateFilter authorFilter : String)
    (lunrIndex : Option (String → Except String (List LunrResult))) (dates : List String) :
    (∀ p ∈ filteredPapers papers query dateFilter authorFilter lunrIndex,
      p ∈ groupFor (filteredPapers papers query dateFilter authorFilter lunrIndex) p.date) ∧
    (∀ (p : PaperRecord) (d : String),
      p ∈ groupFor (filteredPapers papers query dateFilter authorFilter lunrIndex) d →
        d = p.date) ∧
    (∀ d : String,
      (groupFor (filteredPapers papers query dateFilter authorFilter lunrIndex) d).Sublist
        (filteredPapers papers query dateFilter authorFilter lunrIndex)) ∧
    visibleDates dates (filteredPapers papers query dateFilter authorFilter lunrIndex)
      = dates.filter (fun d =>
          !(groupFor (filteredPapers papers query dateFilter authorFilter lunrIndex) d).isEmpty) ∧
    (visibleDates dates (filteredPapers papers query dateFilter authorFilter lunrIndex)).Sublist
      dates := by
  refine ⟨?_, ?_, fun d => List.filter_sublist _, ?_, List.filter_sublist dates⟩
  · intro p hp
    exact List.mem_filter.mpr ⟨hp, by simp⟩
  · intro p d hpd
    have hbeq := (List.mem_filter.mp hpd).2
    have : p.date = d := by simpa using hbeq
    exact this.symm
  · unfold visibleDates
    apply List.filter_congr
    intro d _
    exact hasGroup_eq_not_isEmpty _ d

/-- With all three filter inputs empty, every paper passes the composed
filter regardless of the candidate set. -/
theorem paperPass_all_empty (allowedIds : Option (List String)) (p : PaperRecord) :
    paperPass "" "" "" allowedIds p = true := rfl

/-- Claim C8: with empty query, empty date filter and empty author filter,
the engine's output is exactly the full paper list, permuted into the ranking
comparator's order. -/
theorem C8_empty_filter_identity (papers : List PaperRecord)
    (lunrIndex : Option (String → Except String (List LunrResult))) :
    filteredPapers papers "" "" "" lunrIndex = rankSort papers ∧
    (filteredPapers papers "" "" "" lunrIndex).Perm papers ∧
    (filteredPapers papers "" "" "" lunrIndex).Sorted
      (fun a b => comparePapers a b ≤ 0) := by
  have he : filteredPapers papers "" "" "" lunrIndex = rankSort papers := by
    show rankSort (papers.filter (paperPass "" "" "" (computeAllowedIds "" lunrIndex)))
      = rankSort papers
    rw [List.filter_eq_self.mpr (fun a _ => paperPass_all_empty _ a)]
  rw [he]
  exact ⟨rfl, rankSort_perm papers, rankSort_sorted papers⟩

/-- Claim C9: a query-syntax failure from the index is caught: the candidate
set is `null` and the whole filtering pass behaves exactly as with no index
(substring fallback); the embedding is a total function, so nothing escapes
the engine. -/
theorem C9_query_error_caught (query dateFilter authorFilter : String)
    (papers : List PaperRecord) (search : String → Except String (List LunrResult))
    (e : String)
    (h : search (buildLunrQuery (normalize query)) = Except.error e) :
    computeAllowedIds (normalize query) (some search) = none ∧
    filteredPapers papers query dateFilter authorFilter (some search)
      = filteredPapers papers query dateFilter authorFilter none := by
  have hc : computeAllowedIds (normalize query) (some search) = none := by
    unfold computeAllowedIds
    by_cases hq : normalize query = ""
    · simp [hq]
    · by_cases ht : splitTerms (normalize query) = []
      · simp [hq, ht]
      · simp [hq, ht, h]
  refine ⟨hc, ?_⟩
  show rankSort (papers.filter (paperPass dateFilter (normalize query)
      (normalize authorFilter) (computeAllowedIds (normalize query) (some search))))
    = rankSort (papers.filter (paperPass dateFilter (normalize query)
      (normalize authorFilter) (computeAllowedIds (normalize query) none)))
  rw [hc]
  rfl

theorem C9_query_error_caught_witness :
    filteredPapers [wPaper] "q?" "" ""
        (some fun _ => Except.error "unexpected character")
      = filteredPapers [wPaper] "q?" "" "" none :=
  (C9_query_error_caught "q?" "" "" [wPaper]
    (fun _ => Except.error "unexpected character") "unexpected character" rfl).2

/-- Claim C10: a filtered paper whose date is not in the date index still
counts toward the result total, but its date belongs to no visible date and
it is rendered in no visible date group. -/
theorem C10_unlisted_date (papers : List PaperRecord)
    (query dateFilter authorFilter : String)
    (lunrIndex : Option (String → Except String (List LunrResult)))
    (dates : List String) (p : PaperRecord)
    (hp : p ∈ filteredPapers papers query dateFilter authorFilter lunrIndex)
    (hd : p.date ∉ dates) :
    0 < (filteredPapers papers query dateFilter authorFilter lunrIndex).length ∧
    p.date ∉ visibleDates dates (filteredPapers papers query dateFilter authorFilter lunrIndex) ∧
    ∀ d ∈ visibleDates dates (filteredPapers papers query dateFilter authorFilter lunrIndex),
      p ∉ groupFor (filteredPapers papers query dateFilter authorFilter lunrIndex) d := by
  refine ⟨List.length_pos_of_mem hp, ?_, ?_⟩
  · intro hmem
    exact hd (List.mem_of_mem_filter hmem)
  · intro d hdv hpg
    have hdd : d ∈ dates := List.mem_of_mem_filter hdv
    have hpdd : p.date = d := by simpa using (List.mem_filter.mp hpg).2
    exact hd (hpdd ▸ hdd)

theorem C10_unlisted_date_witness :
    wPaperOld.date ∉ visibleDates ["2026-02-19"]
      (filteredPapers [wPaperOld] "" "" "" none) :=
  (C10_unlisted_date [wPaperOld] "" "" "" none ["2026-02-19"] wPaperOld
    (by decide) (by decide)).2.1

end HfBot
